import Mathlib

/-!
# Verification of the `inc` language middle-end (`src/rs/src/lang.rs`)

A shallow embedding of the compiler middle-end: alpha-renaming (`rename`),
lambda lifting (`lift`), literal interning (`inline`), A-normal-form
conversion (`anf`) and tail-call annotation (`tco`), plus the driving
routine `analyze`.

The expression tree, `Ident`, and the interning `State` live in the crate's
`core` and `compiler::state` modules, which are not part of the sources under
verification; they are modelled from the specification (§3 DATA MODEL) and
pinned down by the in-crate tests of `lang.rs` (e.g. the `function` and
`a_normal_form` tests equate `Ident::new`/`Ident::expr` raw names with
`empty().extend(..)` chains).
-/

set_option maxHeartbeats 1000000

namespace Inc

/-- Modelled from the spec: `Literal` is an atomic constant — number, string,
symbol, boolean, nil (crate `core`, not under the verified sources). -/
inductive Literal where
  | number : Int → Literal
  | boolean : Bool → Literal
  | chr : Char → Literal
  | str : String → Literal
  | symbol : String → Literal
  | nil : Literal
deriving DecidableEq, Repr

/-- Modelled from the spec: `Ident` is a unique, hierarchically-qualified
identifier — a path of segments with an extend-with-one-segment operation and
an empty root; two `Ident`s are equal iff their full paths match exactly. -/
abbrev Ident : Type := List String

/-- `Ident::empty()` — the empty root path. -/
def Ident.empty : Ident := []

/-- `Ident::extend` — pure path append of one more segment. -/
def Ident.extend (base : Ident) (s : String) : Ident := List.append base [s]

/-- `Ident::new` — an `Ident` made directly from one raw name (a single
segment), as used for unresolved globals and the ANF locals `_i`.  The crate's
own `function` test equates this with `empty().extend(s)`. -/
def Ident.new (s : String) : Ident := [s]

/-- Modelled from the spec: `Expr<Name>`, the polymorphic expression tree of
crate `core`.  `Closure` is inlined into the `lambda` constructor as its four
fields (formals, free, body, tail). -/
inductive Expr (N : Type) where
  | identifier : N → Expr N
  | letE : List (N × Expr N) → List (Expr N) → Expr N
  | list : List (Expr N) → Expr N
  | cond : Expr N → Expr N → Option (Expr N) → Expr N
  | lambda : List N → List N → List (Expr N) → Bool → Expr N
  | define : N → Expr N → Expr N
  | vector : List (Expr N) → Expr N
  | lit : Literal → Expr N

instance {N : Type} : Inhabited (Expr N) := ⟨Expr.lit Literal.nil⟩

/-- `Core = Expr<Ident>`, the pipeline's output representation. -/
abbrev Core : Type := Expr Ident

/-- `Ident::expr` — an identifier expression referring to a raw name,
used for unresolved/global references. -/
def Ident.expr (s : String) : Core := Expr.identifier (Ident.new s)

/-- The renaming environment: `HashMap<&str, Ident>` modelled as an
association list where an insert shadows older entries (lookup finds the
most recent insert, matching `HashMap::insert` overwrite semantics). -/
abbrev Env : Type := List (String × Ident)

/-- `HashMap::get` — first (most recently inserted) match. -/
def envLookup : Env → String → Option Ident
  | [], _ => none
  | (k, v) :: rest, s => if k = s then some v else envLookup rest s

/-- The `all` environment of `rename`'s `Let` arm: `env.clone()` followed by
`all.insert(name, base.extend(name))` for every binding name in order. -/
def insertAll (env : Env) (base : Ident) (names : List String) : Env :=
  names.foldl (fun acc n => (n, base.extend n) :: acc) env

/-- The `rest` environment of `rename`'s `Let` arm: `env.clone()` followed by
inserts of every binding name except `current`. -/
def insertExcept (env : Env) (base : Ident) (names : List String)
    (current : String) : Env :=
  names.foldl (fun acc n => if n = current then acc else (n, base.extend n) :: acc) env

/-- The `"{let <index>}"` segment allocated for an anonymous `let` block
(the source formats a `u8` counter; block depth never reaches wrapping in any
input considered here, so the counter is a `Nat`). -/
def letSegment (index : Nat) : String := "\x7blet " ++ toString index ++ "\x7d"

mutual

/-- `rename` from `lang.rs:45`: rewrite a raw-name tree into a tree of
globally qualified `Ident`s. -/
def rename (env : Env) (base : Ident) (index : Nat) : Expr String → Core
  | .identifier s =>
      -- If an identifier is defined already, refer to it, otherwise create a
      -- new one in the top level environment since it is unbound.
      match envLookup env s with
      | some n => Expr.identifier n
      | none => Ident.expr s
  | .letE bindings body =>
      let base' := base.extend (letSegment index)
      -- Collect all the names about to be bound for evaluating the body
      let all := insertAll env base' (bindings.map Prod.fst)
      Expr.letE
        (renameBindings env all (bindings.map Prod.fst) base' index bindings)
        (renameList all base' (index + 1) body)
  | .list l => Expr.list (renameList env base index l)
  | .cond p t a =>
      Expr.cond (rename env base index p) (rename env base index t)
        (renameOpt env base index a)
  | .lambda formals free body tl =>
      let env' := formals.foldl (fun acc arg => (arg, base.extend arg) :: acc) env
      Expr.lambda (formals.map base.extend) (free.map base.extend)
        (renameList env' base 0 body) tl
  | .define name val =>
      Expr.define (base.extend name) (rename env (base.extend name) 0 val)
  | .vector l => Expr.vector (renameList env base index l)
  | .lit v => Expr.lit v

/-- The per-binding loop of `rename`'s `Let` arm: a sub-expression in a let
binding is evaluated with the complete environment (`all`) only if it is
itself a `Let` or a `Lambda`, otherwise with only the rest of the bindings. -/
def renameBindings (env all : Env) (names : List String) (base' : Ident)
    (index : Nat) : List (String × Expr String) → List (Ident × Core)
  | [] => []
  | (current, value) :: bs =>
      let rest := insertExcept env base' names current
      let value' :=
        match value with
        | .letE b2 e2 => rename all base' (index + 1) (.letE b2 e2)
        | .lambda fs fr b t => rename all (base'.extend current) (index + 1) (.lambda fs fr b t)
        | .identifier s => rename rest base' (index + 1) (.identifier s)
        | .list l => rename rest base' (index + 1) (.list l)
        | .cond p t a => rename rest base' (index + 1) (.cond p t a)
        | .define n v => rename rest base' (index + 1) (.define n v)
        | .vector l => rename rest base' (index + 1) (.vector l)
        | .lit v => rename rest base' (index + 1) (.lit v)
      -- `all.get(current).unwrap()` in the source; the key was inserted into
      -- `all` just above, so the lookup always succeeds (rename_unwrap_safe)
      -- and the default is unreachable.
      let ident := (envLookup all current).getD (Ident.new current)
      (ident, value') :: renameBindings env all names base' index bs

/-- `body.into_iter().map(|b| rename(..))`. -/
def renameList (env : Env) (base : Ident) (index : Nat) :
    List (Expr String) → List Core
  | [] => []
  | e :: es => rename env base index e :: renameList env base index es

/-- `alt.map(|u| rename(..))`. -/
def renameOpt (env : Env) (base : Ident) (index : Nat) :
    Option (Expr String) → Option Core
  | none => none
  | some e => some (rename env base index e)

end

/-- `shrink` from `lang.rs:188`: collapse a vector of expressions into one
expression — empty to a nil literal, a singleton to itself, several to a
`List`. -/
def shrink {T : Type} : List (Expr T) → Expr T
  | [] => Expr.lit Literal.nil
  | [e] => e
  | es => Expr.list es

mutual

/-- `lift` from `lang.rs:132`: hoist lambda-valued bindings to `Define`
items; one input node can produce several output items. -/
def lift : Core → List Core
  | .letE bindings body =>
      -- Rest is all the name bindings that are not functions
      let rest := liftRest bindings
      -- Lambda-valued bindings become standalone `Define`s, bodies lifted
      let exported := liftExport bindings
      exported ++ [Expr.letE rest (liftShrinkList body)]
  | .list l => [Expr.list (liftShrinkList l)]
  | .cond p t a => [Expr.cond (shrink (lift p)) (shrink (lift t)) (liftOpt a)]
  -- Lift named code blocks to top level immediately
  | .define name (.lambda fs fr body tl) =>
      [Expr.define name (Expr.lambda fs fr (liftFlat body) tl)]
  | .identifier n => [Expr.identifier n]
  | .lambda fs fr body tl => [Expr.lambda fs fr body tl]
  | .define n v => [Expr.define n v]
  | .vector l => [Expr.vector l]
  | .lit v => [Expr.lit v]

/-- The `filter_map` keeping non-lambda bindings, each value lifted and
collapsed back to a single expression. -/
def liftRest : List (Ident × Core) → List (Ident × Core)
  | [] => []
  | (_, .lambda _ _ _ _) :: bs => liftRest bs
  | (n, .identifier s) :: bs => (n, shrink (lift (.identifier s))) :: liftRest bs
  | (n, .letE b e) :: bs => (n, shrink (lift (.letE b e))) :: liftRest bs
  | (n, .list l) :: bs => (n, shrink (lift (.list l))) :: liftRest bs
  | (n, .cond p t a) :: bs => (n, shrink (lift (.cond p t a))) :: liftRest bs
  | (n, .define m v) :: bs => (n, shrink (lift (.define m v))) :: liftRest bs
  | (n, .vector l) :: bs => (n, shrink (lift (.vector l))) :: liftRest bs
  | (n, .lit v) :: bs => (n, shrink (lift (.lit v))) :: liftRest bs

/-- The `filter_map` turning lambda-valued bindings into top-level `Define`s
with recursively lifted closure bodies. -/
def liftExport : List (Ident × Core) → List Core
  | [] => []
  | (name, .lambda fs fr body tl) :: bs =>
      Expr.define name (Expr.lambda fs fr (liftFlat body) tl) :: liftExport bs
  | (_, .identifier _) :: bs => liftExport bs
  | (_, .letE _ _) :: bs => liftExport bs
  | (_, .list _) :: bs => liftExport bs
  | (_, .cond _ _ _) :: bs => liftExport bs
  | (_, .define _ _) :: bs => liftExport bs
  | (_, .vector _) :: bs => liftExport bs
  | (_, .lit _) :: bs => liftExport bs

/-- `map(|b| shrink(lift(b)))` over a list of expressions. -/
def liftShrinkList : List Core → List Core
  | [] => []
  | e :: es => shrink (lift e) :: liftShrinkList es

/-- `flat_map(lift)` over a closure body. -/
def liftFlat : List Core → List Core
  | [] => []
  | e :: es => lift e ++ liftFlat es

/-- `alt.map(|e| box shrink(lift(*e)))`. -/
def liftOpt : Option Core → Option Core
  | none => none
  | some e => some (shrink (lift e))

end

/-- Modelled from the spec: `compiler::state::State` (not under the verified
sources) holds two append-only literal registries, literal value to first-seen
sequential index; a `HashMap<String, usize>` each, modelled as insertion-order
association lists so that `len()` is the entry count. -/
structure State where
  strings : List (String × Nat)
  symbols : List (String × Nat)

/-- A fresh `State::new()` with empty registries. -/
def State.new : State := ⟨[], []⟩

/-- `HashMap::get`-style lookup in a registry. -/
def regLookup : List (String × Nat) → String → Option Nat
  | [], _ => none
  | (k, v) :: rest, s => if k = s then some v else regLookup rest s

/-- `s.strings.entry(r).or_insert(s.strings.len())`: insert-if-absent with the
next sequential index (the map's current size). -/
def regIntern (reg : List (String × Nat)) (v : String) : List (String × Nat) :=
  match regLookup reg v with
  | some _ => reg
  | none => reg ++ [(v, reg.length)]

/-- The `Literal` arm of `inline`: register a string or symbol literal. -/
def internLit (s : State) : Literal → State
  | .str r => { s with strings := regIntern s.strings r }
  | .symbol r => { s with symbols := regIntern s.symbols r }
  | _ => s

mutual

/-- `inline` from `lang.rs:197`: structurally a pass-through, while
registering every visited string/symbol literal in the state (the Rust
`&mut State` is threaded explicitly). -/
def inline (s : State) : Core → State × Core
  | .lit l => (internLit s l, Expr.lit l)
  | .letE bindings body =>
      let (s1, bs) := inlineBindings s bindings
      let (s2, b2) := inlineList s1 body
      (s2, Expr.letE bs b2)
  | .list l =>
      let (s1, l1) := inlineList s l
      (s1, Expr.list l1)
  | .vector l =>
      let (s1, l1) := inlineList s l
      (s1, Expr.vector l1)
  | .cond p t a =>
      let (s1, p1) := inline s p
      let (s2, t1) := inline s1 t
      match a with
      | some e =>
          let (s3, e1) := inline s2 e
          (s3, Expr.cond p1 t1 (some e1))
      | none => (s2, Expr.cond p1 t1 none)
  | .define name (.lambda fs fr body tl) =>
      let (s1, b1) := inlineList s body
      (s1, Expr.define name (Expr.lambda fs fr b1 tl))
  | .identifier n => (s, Expr.identifier n)
  | .lambda fs fr body tl => (s, Expr.lambda fs fr body tl)
  | .define n v => (s, Expr.define n v)

/-- `bindings.into_iter().map(|(ident, expr)| (ident, inline(s, expr)))`. -/
def inlineBindings (s : State) : List (Ident × Core) → State × List (Ident × Core)
  | [] => (s, [])
  | (n, e) :: bs =>
      let (s1, e1) := inline s e
      let (s2, bs1) := inlineBindings s1 bs
      (s2, (n, e1) :: bs1)

/-- `map(|e| inline(s, e))` over a list, threading the state left to right. -/
def inlineList (s : State) : List Core → State × List Core
  | [] => (s, [])
  | e :: es =>
      let (s1, e1) := inline s e
      let (s2, es1) := inlineList s1 es
      (s2, e1 :: es1)

end

/-- Modelled from the spec: `Expr::anf` (crate `core`, not under the verified
sources) classifies a node as already in normal form: a `Literal`, an
`Identifier`, or a `Lambda` value is atomic; compound nodes requiring further
evaluation (`List`, `Let`, `Cond`, and likewise `Vector`, `Define`) are not. -/
def Expr.anf {N : Type} : Expr N → Bool
  | .lit _ => true
  | .identifier _ => true
  | .lambda _ _ _ _ => true
  | _ => false

/-- `anf` from `lang.rs:250`: one level of A-normal form for a `List` node.
`list.split_at(1)` panics on an empty vector (`mid > len`), modelled as
`none`; every other input yields `some`. -/
def anf : Core → Option Core
  | .list l =>
      match l with
      | [] => none
      | car :: cdr =>
          -- If all arguments are already in normal form, return as is
          if cdr.all Expr.anf then some (Expr.list (car :: cdr))
          else
            -- Variables to be bound in a new let block
            let bindings := (l.tail.enum.filter fun p => !p.2.anf).map
              fun p => (Ident.new ("_" ++ toString p.1), p.2)
            -- Arguments with complex expressions replaced by a variable name
            let args := l.tail.enum.map fun p =>
              if p.2.anf then p.2 else Expr.identifier (Ident.new ("_" ++ toString p.1))
            some (Expr.letE bindings [Expr.list (car :: args)])
  | e => some e

mutual

/-- `tail` from `lang.rs:339`: the tail position of an expression — the last
body expression's tail for a `Let`, the `alt` branch's tail for a `Cond` when
present, the expression itself otherwise. -/
def tailPos {T : Type} : Expr T → Option (Expr T)
  | .letE _ body => tailPosLast body
  | .cond _ _ alt =>
      match alt with
      | some e => tailPos e
      | none => none
  | .identifier n => some (Expr.identifier n)
  | .list l => some (Expr.list l)
  | .lambda fs fr b t => some (Expr.lambda fs fr b t)
  | .define n v => some (Expr.define n v)
  | .vector l => some (Expr.vector l)
  | .lit v => some (Expr.lit v)

/-- `body.last().and_then(tail)`: tail position of the last expression of a
body, `none` for an empty body. -/
def tailPosLast {T : Type} : List (Expr T) → Option (Expr T)
  | [] => none
  | [e] => tailPos e
  | _ :: es => tailPosLast es

end

/-- `is_tail` from `lang.rs:291`: the closure named `name` with body `body`
ends in a self-tail-call — its body's tail position is a `List` whose first
element is an `Identifier` equal to `name`. -/
def isTailCall (name : Ident) (body : List Core) : Bool :=
  match tailPosLast body with
  | some (.list l) =>
      match l.head? with
      | some (.identifier id) => id = name
      | _ => false
  | _ => false

/-- The per-binding rewrite of `tco`'s `Let` arm. -/
def tcoBinding : Ident × Core → Ident × Core
  | (name, .lambda fs fr body _) =>
      (name, Expr.lambda fs fr body (isTailCall name body))
  | (name, value) => (name, value)

/-- `tco` from `lang.rs:290`: annotate `Define`s and `Let` bindings whose
value is a `Lambda` with the self-tail-call marker; everything else passes
through unchanged (no recursion into sub-expressions). -/
def tco : Core → Core
  | .define name (.lambda fs fr body _) =>
      Expr.define name (Expr.lambda fs fr body (isTailCall name body))
  | .letE bindings body => Expr.letE (bindings.map tcoBinding) body
  | e => e

/-- `inline` mapped over the pipeline items, threading the state. -/
def inlineAll (s : State) : List Core → State × List Core
  | [] => (s, [])
  | e :: es =>
      let (s1, e1) := inline s e
      let (s2, es1) := inlineAll s1 es
      (s2, e1 :: es1)

/-- `anf` mapped over the pipeline items; any panic aborts the run. -/
def anfAll : List Core → Option (List Core)
  | [] => some []
  | e :: es =>
      match anf e, anfAll es with
      | some e1, some es1 => some (e1 :: es1)
      | _, _ => none

/-- `analyze` from `lang.rs:15`: rename each top-level form, flat-map `lift`,
then map `inline`, `anf` and `tco` over each item.  `anf`'s panic on an empty
`List` propagates as `none`. -/
def analyze (s : State) (prog : List (Expr String)) : Option (State × List Core) :=
  let cores := (prog.map (rename [] Ident.empty 0)).flatMap lift
  let (s1, inlined) := inlineAll s cores
  match anfAll inlined with
  | some normd => some (s1, normd.map tco)
  | none => none

/-! ## Helper lemmas about environments and identifiers -/

theorem Ident.extend_injective (base : Ident) {a b : String}
    (h : base.extend a = base.extend b) : a = b := by
  have h' : base ++ [a] = base ++ [b] := h
  have h2 : [a] = [b] := List.append_cancel_left h'
  exact (List.cons.injEq a [] b []).mp h2 |>.1

theorem insertAll_cons (env : Env) (base : Ident) (n : String) (ns : List String) :
    insertAll env base (n :: ns) = insertAll ((n, base.extend n) :: env) base ns := rfl

theorem envLookup_insertAll_not_mem {names : List String} {c : String}
    (h : c ∉ names) (env : Env) (base : Ident) :
    envLookup (insertAll env base names) c = envLookup env c := by
  induction names generalizing env with
  | nil => rfl
  | cons n ns ih =>
      rw [insertAll_cons, ih (fun hm => h (List.mem_cons_of_mem n hm))]
      have hne : n ≠ c := fun he => h (he ▸ List.mem_cons_self n ns)
      simp [envLookup, hne]

theorem envLookup_insertAll_mem {names : List String} {c : String}
    (h : c ∈ names) (env : Env) (base : Ident) :
    envLookup (insertAll env base names) c = some (base.extend c) := by
  induction names generalizing env with
  | nil => cases h
  | cons n ns ih =>
      rw [insertAll_cons]
      by_cases hm : c ∈ ns
      · exact ih hm _
      · have hc : c = n := by
          rcases List.mem_cons.mp h with h1 | h2
          · exact h1
          · exact absurd h2 hm
        subst hc
        rw [envLookup_insertAll_not_mem hm]
        simp [envLookup]

/-- The key of `all.get(current).unwrap()` in `rename`'s `Let` arm was just
inserted, so the unwrap never panics. -/
theorem rename_unwrap_safe {names : List String} {c : String} (h : c ∈ names)
    (env : Env) (base : Ident) :
    (envLookup (insertAll env base names) c).isSome = true := by
  rw [envLookup_insertAll_mem h]
  rfl

/-- The `Ident`s `rename` assigns to the bindings of one `Let` are the binding
names qualified under the block's fresh path segment. -/
theorem renameBindings_fst (env : Env) (names : List String) (base' : Ident)
    (index : Nat) (bs : List (String × Expr String))
    (hsub : ∀ p ∈ bs, Prod.fst p ∈ names) :
    (renameBindings env (insertAll env base' names) names base' index bs).map Prod.fst
      = bs.map (fun p => base'.extend p.1) := by
  induction bs with
  | nil => rfl
  | cons b rest ih =>
      obtain ⟨current, value⟩ := b
      have hcur : current ∈ names := hsub _ (List.mem_cons_self _ _)
      have hrest : ∀ p ∈ rest, Prod.fst p ∈ names :=
        fun p hp => hsub p (List.mem_cons_of_mem _ hp)
      cases value <;>
        simp [renameBindings, envLookup_insertAll_mem hcur, ih hrest]

/-! ## C1: uniqueness of binding-site Idents -/

mutual

/-- All binding sites of a renamed program, in tree order: `Let` binding
names, `Lambda` formals and `Define` names. -/
def bindingSites : Core → List Ident
  | .identifier _ => []
  | .letE bs body => bindingSitesBs bs ++ bindingSitesList body
  | .list l => bindingSitesList l
  | .cond p t a => bindingSites p ++ bindingSites t ++ bindingSitesOpt a
  | .lambda fs _ body _ => fs ++ bindingSitesList body
  | .define n v => n :: bindingSites v
  | .vector l => bindingSitesList l
  | .lit _ => []

def bindingSitesBs : List (Ident × Core) → List Ident
  | [] => []
  | (n, v) :: bs => n :: (bindingSites v ++ bindingSitesBs bs)

def bindingSitesList : List Core → List Ident
  | [] => []
  | e :: es => bindingSites e ++ bindingSitesList es

def bindingSitesOpt : Option Core → List Ident
  | none => []
  | some e => bindingSites e

end

/-- `(let ((x 1) (x 2)) x)` — two distinct binding sites in one `Let`. -/
def dupLet : Expr String :=
  .letE [("x", .lit (.number 1)), ("x", .lit (.number 2))] [.identifier "x"]

/-- C1, as stated: the renamed program's binding sites carry pairwise distinct
`Ident`s.  False: in `(let ((x 1) (x 2)) x)` both sibling bindings — two
distinct binding sites — are renamed to the same `{let 0}::x`. -/
theorem c1_binding_sites_not_injective :
    ¬ (bindingSites (rename [] Ident.empty 0 dupLet)).Nodup := by decide

/-- C1 amended: the binding-site map is injective only locally — within one
`Let` node whose binding names are pairwise distinct the assigned `Ident`s are
pairwise distinct, and likewise for the formals of one `Lambda`; distinct
binding sites elsewhere in a program may still collide (duplicate names in one
`Let`, or sibling `let` blocks sharing base and index). -/
theorem c1_local_injectivity :
    (∀ (env : Env) (base : Ident) (index : Nat)
        (bindings : List (String × Expr String)) (body : List (Expr String)),
      (bindings.map Prod.fst).Nodup →
      ∃ bs' body', rename env base index (.letE bindings body) = .letE bs' body'
        ∧ (bs'.map Prod.fst).Nodup) ∧
    (∀ (env : Env) (base : Ident) (index : Nat)
        (fs fr : List String) (body : List (Expr String)) (t : Bool),
      fs.Nodup →
      ∃ fs' fr' body',
        rename env base index (.lambda fs fr body t) = .lambda fs' fr' body' t
        ∧ fs'.Nodup) := by
  constructor
  · intro env base index bindings body hnd
    refine ⟨_, _, rfl, ?_⟩
    rw [renameBindings_fst env (bindings.map Prod.fst) _ index bindings
      (fun p hp => List.mem_map_of_mem Prod.fst hp)]
    rw [show (bindings.map fun p => (base.extend (letSegment index)).extend p.1)
        = (bindings.map Prod.fst).map ((base.extend (letSegment index)).extend) by
      simp]
    exact hnd.map (fun a b h => Ident.extend_injective _ h)
  · intro env base index fs fr body t hnd
    refine ⟨_, _, _, rfl, ?_⟩
    exact hnd.map (fun a b h => Ident.extend_injective _ h)

theorem c1_local_injectivity_witness :
    ∃ bs' body',
      rename [] Ident.empty 0
          (.letE [("x", .lit (.number 1)), ("y", .lit (.number 2))]
            [.identifier "x"])
        = .letE bs' body' ∧ (bs'.map Prod.fst).Nodup :=
  c1_local_injectivity.1 [] Ident.empty 0
    [("x", .lit (.number 1)), ("y", .lit (.number 2))] [.identifier "x"]
    (by decide)

/-! ## C2: the letrec asymmetry of `rename`'s `Let` arm -/

/-- The per-binding environment rule, stated from the claim: a binding value
that is itself a `Let` or a `Lambda` is renamed under the environment extended
with all sibling bindings; any other value kind is renamed under the
environment extended with all sibling bindings except the one being
defined. -/
def letBindingRule (env : Env) (base' : Ident) (index : Nat)
    (names : List String) (p : String × Expr String) : Ident × Core :=
  (base'.extend p.1,
    match p.2 with
    | .letE _ _ => rename (insertAll env base' names) base' (index + 1) p.2
    | .lambda _ _ _ _ =>
        rename (insertAll env base' names) (base'.extend p.1) (index + 1) p.2
    | _ => rename (insertExcept env base' names p.1) base' (index + 1) p.2)

theorem renameList_eq_map (env : Env) (base : Ident) (index : Nat)
    (l : List (Expr String)) :
    renameList env base index l = l.map (rename env base index) := by
  induction l with
  | nil => rfl
  | cons e es ih => simp [renameList, ih]

theorem renameBindings_eq_map (env : Env) (names : List String) (base' : Ident)
    (index : Nat) (bs : List (String × Expr String))
    (hsub : ∀ p ∈ bs, Prod.fst p ∈ names) :
    renameBindings env (insertAll env base' names) names base' index bs
      = bs.map (letBindingRule env base' index names) := by
  induction bs with
  | nil => rfl
  | cons b rest ih =>
      obtain ⟨current, value⟩ := b
      have hcur : current ∈ names := hsub _ (List.mem_cons_self _ _)
      have hrest : ∀ p ∈ rest, Prod.fst p ∈ names :=
        fun p hp => hsub p (List.mem_cons_of_mem _ hp)
      cases value <;>
        simp [renameBindings, letBindingRule, envLookup_insertAll_mem hcur,
          ih hrest]

/-- `(let ((f (lambda (x) (g x))) (g (lambda (x) (f x)))) (f 1))` — co-bound
lambdas referring to each other. -/
def mutualLet : Expr String :=
  .letE
    [("f", .lambda ["x"] [] [.list [.identifier "g", .identifier "x"]] false),
     ("g", .lambda ["x"] [] [.list [.identifier "f", .identifier "x"]] false)]
    [.list [.identifier "f", .lit (.number 1)]]

/-- `(let ((x x)) x)` — a plain value referring to its own name. -/
def selfLet : Expr String :=
  .letE [("x", .identifier "x")] [.identifier "x"]

/-- C2: each `Let` binding's value is renamed under the environment chosen by
its kind — a `Let`- or `Lambda`-valued binding sees all sibling bindings
(mutual recursion among co-bound closures works), any other value sees all
siblings except the binding being defined (a plain value's self-reference
stays unresolved rather than resolving to the binding being defined). -/
theorem c2_let_env_rule :
    (∀ (env : Env) (base : Ident) (index : Nat)
        (bindings : List (String × Expr String)) (body : List (Expr String)),
      rename env base index (.letE bindings body) =
        .letE
          (bindings.map
            (letBindingRule env (base.extend (letSegment index)) index
              (bindings.map Prod.fst)))
          (body.map
            (rename
              (insertAll env (base.extend (letSegment index))
                (bindings.map Prod.fst))
              (base.extend (letSegment index)) (index + 1)))) ∧
    rename [] Ident.empty 0 mutualLet =
      .letE
        [([letSegment 0, "f"],
          .lambda [[letSegment 0, "f", "x"]] []
            [.list [.identifier [letSegment 0, "g"],
                    .identifier [letSegment 0, "f", "x"]]] false),
         ([letSegment 0, "g"],
          .lambda [[letSegment 0, "g", "x"]] []
            [.list [.identifier [letSegment 0, "f"],
                    .identifier [letSegment 0, "g", "x"]]] false)]
        [.list [.identifier [letSegment 0, "f"], .lit (.number 1)]] ∧
    rename [] Ident.empty 0 selfLet =
      .letE [([letSegment 0, "x"], .identifier ["x"])]
        [.identifier [letSegment 0, "x"]] := by
  refine ⟨?_, rfl, rfl⟩
  intro env base index bindings body
  show Expr.letE _ _ = _
  rw [renameBindings_eq_map env (bindings.map Prod.fst) _ index bindings
    (fun p hp => List.mem_map_of_mem Prod.fst hp)]
  rw [renameList_eq_map]

/-! ## C3: lambdas after lifting -/

mutual

/-- No `Lambda` node occurs anywhere in the expression. -/
def noLambda {T : Type} : Expr T → Bool
  | .identifier _ => true
  | .letE bs body => noLambdaBs bs && noLambdaList body
  | .list l => noLambdaList l
  | .cond p t a => noLambda p && noLambda t && noLambdaOpt a
  | .lambda _ _ _ _ => false
  | .define _ v => noLambda v
  | .vector l => noLambdaList l
  | .lit _ => true

def noLambdaBs {T : Type} : List (T × Expr T) → Bool
  | [] => true
  | (_, v) :: bs => noLambda v && noLambdaBs bs

def noLambdaList {T : Type} : List (Expr T) → Bool
  | [] => true
  | e :: es => noLambda e && noLambdaList es

def noLambdaOpt {T : Type} : Option (Expr T) → Bool
  | none => true
  | some e => noLambda e

end

/-- An output item respecting the claimed invariant: any `Lambda` in it is
the direct `val` of the item-level `Define`. -/
def topOk : Core → Bool
  | .define _ (.lambda _ _ body _) => noLambdaList body
  | e => noLambda e

theorem noLambdaList_eq_all {T : Type} (l : List (Expr T)) :
    noLambdaList l = l.all noLambda := by
  induction l with
  | nil => rfl
  | cons e es ih => simp [noLambdaList, ih, List.all]

theorem shrink_noLambda {T : Type} {l : List (Expr T)}
    (h : l.all noLambda = true) : noLambda (shrink l) = true := by
  match l with
  | [] => rfl
  | [e] => simpa [List.all] using h
  | e :: f :: es =>
      show noLambdaList (e :: f :: es) = true
      rw [noLambdaList_eq_all]
      exact h

mutual

theorem noLambda_lift : (e : Core) → noLambda e = true →
    (lift e).all noLambda = true
  | .identifier n, _ => by simp [lift, List.all, noLambda]
  | .letE bs body, h => by
      have h1 : noLambdaBs bs = true := by
        have := h; simp [noLambda, Bool.and_eq_true] at this; exact this.1
      have h2 : noLambdaList body = true := by
        have := h; simp [noLambda, Bool.and_eq_true] at this; exact this.2
      rw [lift, liftExport_noLambda bs h1]
      simp only [List.nil_append, List.all_cons, List.all_nil, Bool.and_true]
      show (noLambdaBs (liftRest bs) && noLambdaList (liftShrinkList body))
        = true
      rw [liftRest_noLambda bs h1, liftShrinkList_noLambda body h2]
      rfl
  | .list l, h => by
      have h1 : noLambdaList l = true := h
      simp only [lift, List.all_cons, List.all_nil, Bool.and_true]
      show noLambdaList (liftShrinkList l) = true
      exact liftShrinkList_noLambda l h1
  | .cond p t a, h => by
      have hp : noLambda p = true := by
        simp [noLambda, Bool.and_eq_true] at h; exact h.1.1
      have ht : noLambda t = true := by
        simp [noLambda, Bool.and_eq_true] at h; exact h.1.2
      have ha : noLambdaOpt a = true := by
        simp [noLambda, Bool.and_eq_true] at h; exact h.2
      simp only [lift, List.all_cons, List.all_nil, Bool.and_true]
      show (noLambda (Expr.cond (shrink (lift p)) (shrink (lift t)) (liftOpt a)))
        = true
      show (noLambda (shrink (lift p)) && noLambda (shrink (lift t))
        && noLambdaOpt (liftOpt a)) = true
      rw [shrink_noLambda (noLambda_lift p hp),
        shrink_noLambda (noLambda_lift t ht), liftOpt_noLambda a ha]
      rfl
  | .lambda fs fr b tl, h => by simp [noLambda] at h
  | .define n (.lambda fs fr b tl), h => by simp [noLambda] at h
  | .define n (.identifier s), h => by
      simp only [lift, List.all_cons, List.all_nil, Bool.and_true]
      exact h
  | .define n (.letE b2 e2), h => by
      simp only [lift, List.all_cons, List.all_nil, Bool.and_true]
      exact h
  | .define n (.list l), h => by
      simp only [lift, List.all_cons, List.all_nil, Bool.and_true]
      exact h
  | .define n (.cond p t a), h => by
      simp only [lift, List.all_cons, List.all_nil, Bool.and_true]
      exact h
  | .define n (.define m v), h => by
      simp only [lift, List.all_cons, List.all_nil, Bool.and_true]
      exact h
  | .define n (.vector l), h => by
      simp only [lift, List.all_cons, List.all_nil, Bool.and_true]
      exact h
  | .define n (.lit v), h => by
      simp only [lift, List.all_cons, List.all_nil, Bool.and_true]
      exact h
  | .vector l, h => by
      simp only [lift, List.all_cons, List.all_nil, Bool.and_true]
      exact h
  | .lit v, _ => by simp [lift, List.all, noLambda]

theorem liftExport_noLambda : (bs : List (Ident × Core)) →
    noLambdaBs bs = true → liftExport bs = []
  | [], _ => rfl
  | (n, .lambda fs fr b tl) :: bs, h => by simp [noLambdaBs, noLambda] at h
  | (n, .identifier s) :: bs, h => by
      rw [liftExport]
      exact liftExport_noLambda bs (by simp [noLambdaBs] at h; exact h.2)
  | (n, .letE b2 e2) :: bs, h => by
      rw [liftExport]
      exact liftExport_noLambda bs (by simp [noLambdaBs] at h; exact h.2)
  | (n, .list l) :: bs, h => by
      rw [liftExport]
      exact liftExport_noLambda bs (by simp [noLambdaBs] at h; exact h.2)
  | (n, .cond p t a) :: bs, h => by
      rw [liftExport]
      exact liftExport_noLambda bs (by simp [noLambdaBs] at h; exact h.2)
  | (n, .define m v) :: bs, h => by
      rw [liftExport]
      exact liftExport_noLambda bs (by simp [noLambdaBs] at h; exact h.2)
  | (n, .vector l) :: bs, h => by
      rw [liftExport]
      exact liftExport_noLambda bs (by simp [noLambdaBs] at h; exact h.2)
  | (n, .lit v) :: bs, h => by
      rw [liftExport]
      exact liftExport_noLambda bs (by simp [noLambdaBs] at h; exact h.2)

theorem liftRest_noLambda : (bs : List (Ident × Core)) →
    noLambdaBs bs = true → noLambdaBs (liftRest bs) = true
  | [], _ => rfl
  | (n, .lambda fs fr b tl) :: bs, h => by simp [noLambdaBs, noLambda] at h
  | (n, .identifier s) :: bs, h => by
      have h1 : noLambda (Expr.identifier s : Core) = true := by
        simp [noLambdaBs] at h; exact h.1
      have h2 : noLambdaBs bs = true := by simp [noLambdaBs] at h; exact h.2
      rw [liftRest]
      show (noLambda (shrink (lift (Expr.identifier s)))
        && noLambdaBs (liftRest bs)) = true
      rw [shrink_noLambda (noLambda_lift _ h1), liftRest_noLambda bs h2]
      rfl
  | (n, .letE b2 e2) :: bs, h => by
      have h1 : noLambda (Expr.letE b2 e2) = true := by
        simp [noLambdaBs] at h; exact h.1
      have h2 : noLambdaBs bs = true := by simp [noLambdaBs] at h; exact h.2
      rw [liftRest]
      show (noLambda (shrink (lift (Expr.letE b2 e2)))
        && noLambdaBs (liftRest bs)) = true
      rw [shrink_noLambda (noLambda_lift _ h1), liftRest_noLambda bs h2]
      rfl
  | (n, .list l) :: bs, h => by
      have h1 : noLambda (Expr.list l : Core) = true := by
        simp [noLambdaBs] at h; exact h.1
      have h2 : noLambdaBs bs = true := by simp [noLambdaBs] at h; exact h.2
      rw [liftRest]
      show (noLambda (shrink (lift (Expr.list l)))
        && noLambdaBs (liftRest bs)) = true
      rw [shrink_noLambda (noLambda_lift _ h1), liftRest_noLambda bs h2]
      rfl
  | (n, .cond p t a) :: bs, h => by
      have h1 : noLambda (Expr.cond p t a) = true := by
        simp [noLambdaBs] at h; exact h.1
      have h2 : noLambdaBs bs = true := by simp [noLambdaBs] at h; exact h.2
      rw [liftRest]
      show (noLambda (shrink (lift (Expr.cond p t a)))
        && noLambdaBs (liftRest bs)) = true
      rw [shrink_noLambda (noLambda_lift _ h1), liftRest_noLambda bs h2]
      rfl
  | (n, .define m v) :: bs, h => by
      have h1 : noLambda (Expr.define m v) = true := by
        simp [noLambdaBs] at h; exact h.1
      have h2 : noLambdaBs bs = true := by simp [noLambdaBs] at h; exact h.2
      rw [liftRest]
      show (noLambda (shrink (lift (Expr.define m v)))
        && noLambdaBs (liftRest bs)) = true
      rw [shrink_noLambda (noLambda_lift _ h1), liftRest_noLambda bs h2]
      rfl
  | (n, .vector l) :: bs, h => by
      have h1 : noLambda (Expr.vector l : Core) = true := by
        simp [noLambdaBs] at h; exact h.1
      have h2 : noLambdaBs bs = true := by simp [noLambdaBs] at h; exact h.2
      rw [liftRest]
      show (noLambda (shrink (lift (Expr.vector l)))
        && noLambdaBs (liftRest bs)) = true
      rw [shrink_noLambda (noLambda_lift _ h1), liftRest_noLambda bs h2]
      rfl
  | (n, .lit v) :: bs, h => by
      have h1 : noLambda (Expr.lit v : Core) = true := by
        simp [noLambdaBs] at h; exact h.1
      have h2 : noLambdaBs bs = true := by simp [noLambdaBs] at h; exact h.2
      rw [liftRest]
      show (noLambda (shrink (lift (Expr.lit v)))
        && noLambdaBs (liftRest bs)) = true
      rw [shrink_noLambda (noLambda_lift _ h1), liftRest_noLambda bs h2]
      rfl

theorem liftShrinkList_noLambda : (l : List Core) →
    noLambdaList l = true → noLambdaList (liftShrinkList l) = true
  | [], _ => rfl
  | e :: es, h => by
      have h1 : noLambda e = true := by simp [noLambdaList] at h; exact h.1
      have h2 : noLambdaList es = true := by
        simp [noLambdaList] at h; exact h.2
      rw [liftShrinkList]
      show (noLambda (shrink (lift e)) && noLambdaList (liftShrinkList es))
        = true
      rw [shrink_noLambda (noLambda_lift e h1), liftShrinkList_noLambda es h2]
      rfl

theorem liftOpt_noLambda : (a : Option Core) →
    noLambdaOpt a = true → noLambdaOpt (liftOpt a) = true
  | none, _ => rfl
  | some e, h => shrink_noLambda (noLambda_lift e h)

end

theorem liftFlat_noLambda : (l : List Core) →
    noLambdaList l = true → noLambdaList (liftFlat l) = true
  | [], _ => rfl
  | e :: es, h => by
      have h1 : noLambda e = true := by simp [noLambdaList] at h; exact h.1
      have h2 : noLambdaList es = true := by
        simp [noLambdaList] at h; exact h.2
      rw [liftFlat, noLambdaList_eq_all, List.all_append]
      rw [noLambda_lift e h1]
      rw [← noLambdaList_eq_all, liftFlat_noLambda es h2]
      rfl

theorem noLambda_topOk {e : Core} (h : noLambda e = true) : topOk e = true := by
  cases e with
  | define n v =>
      cases v with
      | lambda fs fr b tl => simp [noLambda] at h
      | _ => exact h
  | _ => exact h

theorem all_noLambda_topOk {l : List Core} (h : l.all noLambda = true) :
    l.all topOk = true := by
  rw [List.all_eq_true] at h ⊢
  exact fun x hx => noLambda_topOk (h x hx)

/-- A binding a lifted `Let` can fully flatten: a `Lambda` value with a
lambda-free body, or a lambda-free value of any other kind. -/
def liftableBinding : Ident × Core → Bool
  | (_, .lambda _ _ body _) => noLambdaList body
  | (_, v) => noLambda v

/-- An item `lift` can fully flatten: a `Let` whose bindings are liftable and
whose body is lambda-free, a `Define` of a `Lambda` with lambda-free body, or
a lambda-free expression. -/
def liftable : Core → Bool
  | .letE bs body => bs.all liftableBinding && noLambdaList body
  | .define _ (.lambda _ _ body _) => noLambdaList body
  | e => noLambda e

theorem all_cons_true {α : Type} {p : α → Bool} {a : α} {l : List α}
    (h : (a :: l).all p = true) : p a = true ∧ l.all p = true := by
  rw [List.all_cons, Bool.and_eq_true] at h; exact h

theorem liftExport_topOk : (bs : List (Ident × Core)) →
    bs.all liftableBinding = true → (liftExport bs).all topOk = true := by
  intro bs
  induction bs with
  | nil => intro _; rfl
  | cons b rest ih =>
      intro h
      have h1 : liftableBinding b = true := (all_cons_true h).1
      have h2 : rest.all liftableBinding = true := (all_cons_true h).2
      obtain ⟨n, v⟩ := b
      cases v with
      | lambda fs fr body tl =>
          have hb : noLambdaList body = true := h1
          rw [liftExport, List.all_cons]
          have : topOk (Expr.define n (Expr.lambda fs fr (liftFlat body) tl))
              = true := liftFlat_noLambda body hb
          rw [this, ih h2]
          rfl
      | identifier s => rw [liftExport]; exact ih h2
      | letE b2 e2 => rw [liftExport]; exact ih h2
      | list l => rw [liftExport]; exact ih h2
      | cond p t a => rw [liftExport]; exact ih h2
      | define m w => rw [liftExport]; exact ih h2
      | vector l => rw [liftExport]; exact ih h2
      | lit w => rw [liftExport]; exact ih h2

theorem liftRest_liftable : (bs : List (Ident × Core)) →
    bs.all liftableBinding = true → noLambdaBs (liftRest bs) = true := by
  intro bs
  induction bs with
  | nil => intro _; rfl
  | cons b rest ih =>
      intro h
      have h1 : liftableBinding b = true := (all_cons_true h).1
      have h2 : rest.all liftableBinding = true := (all_cons_true h).2
      obtain ⟨n, v⟩ := b
      cases v with
      | lambda fs fr body tl => rw [liftRest]; exact ih h2
      | identifier s =>
          rw [liftRest]
          show (noLambda (shrink (lift (Expr.identifier s)))
            && noLambdaBs (liftRest rest)) = true
          rw [shrink_noLambda (noLambda_lift _ h1), ih h2]; rfl
      | letE b2 e2 =>
          rw [liftRest]
          show (noLambda (shrink (lift (Expr.letE b2 e2)))
            && noLambdaBs (liftRest rest)) = true
          rw [shrink_noLambda (noLambda_lift _ h1), ih h2]; rfl
      | list l =>
          rw [liftRest]
          show (noLambda (shrink (lift (Expr.list l)))
            && noLambdaBs (liftRest rest)) = true
          rw [shrink_noLambda (noLambda_lift _ h1), ih h2]; rfl
      | cond p t a =>
          rw [liftRest]
          show (noLambda (shrink (lift (Expr.cond p t a)))
            && noLambdaBs (liftRest rest)) = true
          rw [shrink_noLambda (noLambda_lift _ h1), ih h2]; rfl
      | define m w =>
          rw [liftRest]
          show (noLambda (shrink (lift (Expr.define m w)))
            && noLambdaBs (liftRest rest)) = true
          rw [shrink_noLambda (noLambda_lift _ h1), ih h2]; rfl
      | vector l =>
          rw [liftRest]
          show (noLambda (shrink (lift (Expr.vector l)))
            && noLambdaBs (liftRest rest)) = true
          rw [shrink_noLambda (noLambda_lift _ h1), ih h2]; rfl
      | lit w =>
          rw [liftRest]
          show (noLambda (shrink (lift (Expr.lit w)))
            && noLambdaBs (liftRest rest)) = true
          rw [shrink_noLambda (noLambda_lift _ h1), ih h2]; rfl

/-- `(define f (lambda () (let ((g (lambda (x) x))) (g 1))))` — a lambda
nested inside another lambda's body. -/
def nestedDefine : Expr String :=
  .define "f"
    (.lambda [] []
      [.letE [("g", .lambda ["x"] [] [.identifier "x"] false)]
        [.list [.identifier "g", .lit (.number 1)]]] false)

/-- C3, as stated: after lifting, every `Lambda` is the direct `val` of a
top-level `Define`.  False: lifting `(define f (lambda () (let ((g (lambda
(x) x))) (g 1))))` splices `(define .. g ..)` into `f`'s closure body, so a
`Lambda` remains nested inside another closure, not at top level. -/
theorem c3_lift_flattening_fails :
    ((lift (rename [] Ident.empty 0 nestedDefine)).all topOk) = false := by rfl

/-- C3 amended: for an item whose lambdas are not themselves nested under
further lambdas — a `Let` with liftable bindings and a lambda-free body, a
`Define` of a `Lambda` with a lambda-free body, or a lambda-free
expression — every `Lambda` in the lifted output is the direct `val` of an
output-item `Define`.  In general a closure body's own `Let`-bound lambdas
are spliced into that body as nested `Define`s rather than hoisted to top
level, and a `Define` of a non-lambda value is not traversed at all. -/
theorem c3_lift_flattening_liftable (e : Core) (h : liftable e = true) :
    (lift e).all topOk = true := by
  cases e with
  | letE bs body =>
      have h' : (bs.all liftableBinding && noLambdaList body) = true := h
      have h1 : bs.all liftableBinding = true := (Bool.and_eq_true _ _ |>.mp h').1
      have h2 : noLambdaList body = true := (Bool.and_eq_true _ _ |>.mp h').2
      rw [lift, List.all_append, liftExport_topOk bs h1]
      simp only [List.all_cons, List.all_nil, Bool.and_true, Bool.true_and]
      show topOk (Expr.letE (liftRest bs) (liftShrinkList body)) = true
      have : noLambda (Expr.letE (liftRest bs) (liftShrinkList body)) = true := by
        show (noLambdaBs (liftRest bs) && noLambdaList (liftShrinkList body))
          = true
        rw [liftRest_liftable bs h1, liftShrinkList_noLambda body h2]
        rfl
      exact noLambda_topOk this
  | define n v =>
      cases v with
      | lambda fs fr body tl =>
          have hb : noLambdaList body = true := h
          rw [lift]
          simp only [List.all_cons, List.all_nil, Bool.and_true]
          show noLambdaList (liftFlat body) = true
          exact liftFlat_noLambda body hb
      | identifier s => exact all_noLambda_topOk (noLambda_lift _ h)
      | letE b2 e2 => exact all_noLambda_topOk (noLambda_lift _ h)
      | list l => exact all_noLambda_topOk (noLambda_lift _ h)
      | cond p t a => exact all_noLambda_topOk (noLambda_lift _ h)
      | define m w => exact all_noLambda_topOk (noLambda_lift _ h)
      | vector l => exact all_noLambda_topOk (noLambda_lift _ h)
      | lit w => exact all_noLambda_topOk (noLambda_lift _ h)
  | identifier s => exact all_noLambda_topOk (noLambda_lift _ h)
  | list l => exact all_noLambda_topOk (noLambda_lift _ h)
  | cond p t a => exact all_noLambda_topOk (noLambda_lift _ h)
  | lambda fs fr b tl => simp [liftable, noLambda] at h
  | vector l => exact all_noLambda_topOk (noLambda_lift _ h)
  | lit v => exact all_noLambda_topOk (noLambda_lift _ h)

/-- `(let ((id (lambda (x) x))) (id 42))`, the crate's `lift_simple` test. -/
def idLet : Expr String :=
  .letE [("id", .lambda ["x"] [] [.identifier "x"] false)]
    [.list [.identifier "id", .lit (.number 42)]]

theorem c3_lift_flattening_liftable_witness :
    (lift (rename [] Ident.empty 0 idLet)).all topOk = true :=
  c3_lift_flattening_liftable (rename [] Ident.empty 0 idLet) (by rfl)

/-! ## C4: tail-call annotation -/

/-- Whether a node is a `Lambda` value. -/
def isLambda {N : Type} : Expr N → Bool
  | .lambda _ _ _ _ => true
  | _ => false

/-- The tail-position grammar as the claim states it: for a `Let`, the tail
position of its last body expression; for a `Cond`, the tail position of the
`alt` branch when present (the `then` branch is never inspected); any other
expression is its own tail position. -/
def tailPosSpec : Core → Option Core
  | .letE _ body =>
      match _hl : body.getLast? with
      | some e => tailPosSpec e
      | none => none
  | .cond _ _ (some e) => tailPosSpec e
  | .cond _ _ none => none
  | .identifier n => some (.identifier n)
  | .list l => some (.list l)
  | .lambda fs fr b t => some (.lambda fs fr b t)
  | .define n v => some (.define n v)
  | .vector l => some (.vector l)
  | .lit v => some (.lit v)
termination_by e => sizeOf e
decreasing_by
  · simp_wf
    have hm : e ∈ body := by
      obtain ⟨hne, rfl⟩ := List.mem_getLast?_eq_getLast (Option.mem_def.mpr _hl)
      exact List.getLast_mem hne
    have := List.sizeOf_lt_of_mem hm
    omega
  · simp_wf
    omega

theorem tailPosSpec_letE (bs : List (Ident × Core)) (body : List Core) :
    tailPosSpec (.letE bs body) = body.getLast?.bind tailPosSpec := by
  rw [tailPosSpec]
  split
  · next e he => rw [he]; rfl
  · next he => rw [he]; rfl

mutual

theorem tailPos_eq_spec : (e : Core) → tailPos e = tailPosSpec e
  | .letE bs body => by
      rw [tailPos, tailPosLast_eq_spec body, tailPosSpec_letE]
  | .cond p t (some e) => by
      have h1 : tailPos (Expr.cond p t (some e)) = tailPos e := rfl
      rw [h1, tailPos_eq_spec e]
      rw [show tailPosSpec (Expr.cond p t (some e)) = tailPosSpec e from by
        simp only [tailPosSpec]]
  | .cond p t none => by
      have h1 : tailPos (Expr.cond p t none) = none := rfl
      rw [h1]
      simp only [tailPosSpec]
  | .identifier n => by simp only [tailPos, tailPosSpec]
  | .list l => by simp only [tailPos, tailPosSpec]
  | .lambda fs fr b t => by simp only [tailPos, tailPosSpec]
  | .define n v => by simp only [tailPos, tailPosSpec]
  | .vector l => by simp only [tailPos, tailPosSpec]
  | .lit v => by simp only [tailPos, tailPosSpec]

theorem tailPosLast_eq_spec : (l : List Core) →
    tailPosLast l = l.getLast?.bind tailPosSpec
  | [] => rfl
  | [e] => by
      have h1 : tailPosLast [e] = tailPos e := rfl
      rw [h1, tailPos_eq_spec e]
      rfl
  | e :: f :: es => by
      have h1 : tailPosLast (e :: f :: es) = tailPosLast (f :: es) := rfl
      rw [h1, tailPosLast_eq_spec (f :: es), List.getLast?_cons_cons]

end

/-- The detection rule as the claim states it: the tail flag is true iff the
tail position of the closure body's last expression is a `List` whose first
element is an `Identifier` equal to the closure's name. -/
def tailFlagSpec (n : Ident) (body : List Core) : Bool :=
  match body.getLast? with
  | none => false
  | some last =>
      match tailPosSpec last with
      | some (.list l) =>
          match l.head? with
          | some (.identifier id) => id = n
          | _ => false
      | _ => false

theorem isTailCall_eq_spec (n : Ident) (body : List Core) :
    isTailCall n body = tailFlagSpec n body := by
  unfold isTailCall tailFlagSpec
  rw [tailPosLast_eq_spec]
  cases hb : body.getLast? with
  | none => rfl
  | some last => rfl

/-- The `Let`-binding rewrite as the claim states it. -/
def tcoBindingSpec : Ident × Core → Ident × Core
  | (name, .lambda fs fr body _) =>
      (name, .lambda fs fr body (tailFlagSpec name body))
  | p => p

theorem tcoBinding_eq_spec (p : Ident × Core) :
    tcoBinding p = tcoBindingSpec p := by
  obtain ⟨n, v⟩ := p
  cases v <;> simp [tcoBinding, tcoBindingSpec, isTailCall_eq_spec]

/-- `(define (loop x) (if (zero? x) x (loop (dec x))))`, renamed — the spec's
self-tail-recursive example. -/
def loopDefine : Core :=
  .define ["loop"]
    (.lambda [["loop", "x"]] []
      [.cond (.list [.identifier ["zero?"], .identifier ["loop", "x"]])
        (.identifier ["loop", "x"])
        (some (.list [.identifier ["loop"],
          .list [.identifier ["dec"], .identifier ["loop", "x"]]]))] false)

/-- `(define (f x) (+ 1 (f x)))`, renamed — the recursive call is not in tail
position. -/
def plusDefine : Core :=
  .define ["f"]
    (.lambda [["f", "x"]] []
      [.list [.identifier ["+"], .lit (.number 1),
        .list [.identifier ["f"], .identifier ["f", "x"]]]] false)

/-- C4: `tco` sets the tail flag of a `Define`d or `Let`-bound closure to
true iff the tail position of the body's last expression (computed by the
`Let`-last / `Cond`-alt-only grammar) is a `List` headed by an `Identifier`
equal to the closure's name; all other nodes pass through unchanged.  The
spec's two examples: `loop` is marked, `f`'s non-tail self-call is not. -/
theorem c4_tco_flag :
    (∀ (n : Ident) (fs fr : List Ident) (b : List Core) (t : Bool),
      tco (.define n (.lambda fs fr b t))
        = .define n (.lambda fs fr b (tailFlagSpec n b))) ∧
    (∀ (bs : List (Ident × Core)) (body : List Core),
      tco (.letE bs body) = .letE (bs.map tcoBindingSpec) body) ∧
    (∀ (n : Ident) (v : Core), isLambda v = false →
      tco (.define n v) = .define n v) ∧
    (∀ (l : List Core), tco (.list l) = .list l) ∧
    (∀ (p t : Core) (a : Option Core), tco (.cond p t a) = .cond p t a) ∧
    (∀ (n : Ident), tco (.identifier n) = .identifier n) ∧
    (∀ (l : List Core), tco (.vector l) = .vector l) ∧
    (∀ (v : Literal), tco (.lit v) = .lit v) ∧
    (∀ (fs fr : List Ident) (b : List Core) (t : Bool),
      tco (.lambda fs fr b t) = .lambda fs fr b t) ∧
    tco loopDefine =
      .define ["loop"]
        (.lambda [["loop", "x"]] []
          [.cond (.list [.identifier ["zero?"], .identifier ["loop", "x"]])
            (.identifier ["loop", "x"])
            (some (.list [.identifier ["loop"],
              .list [.identifier ["dec"], .identifier ["loop", "x"]]]))]
          true) ∧
    tco plusDefine = plusDefine := by
  refine ⟨?_, ?_, ?_, fun _ => rfl, fun _ _ _ => rfl, fun _ => rfl,
    fun _ => rfl, fun _ => rfl, fun _ _ _ _ => rfl, rfl, rfl⟩
  · intro n fs fr b t
    rw [tco, isTailCall_eq_spec]
  · intro bs body
    rw [tco]
    rw [List.map_congr_left (fun p _ => tcoBinding_eq_spec p)]
  · intro n v hv
    cases v with
    | lambda fs fr b t => simp [isLambda] at hv
    | _ => rfl

theorem c4_tco_flag_witness :
    tco (.define ["x"] (.lit .nil)) = .define ["x"] (.lit .nil) :=
  c4_tco_flag.2.2.1 ["x"] (.lit .nil) rfl

/-! ## C5: single-level ANF conversion -/

/-- Whether a node is a `List`. -/
def isList {N : Type} : Expr N → Bool
  | .list _ => true
  | _ => false

/-- `(f (+ 1 2) 7)`, the crate's `a_normal_form` test program. -/
def callProgram : Expr String :=
  .list [.identifier "f",
    .list [.identifier "+", .lit (.number 1), .lit (.number 2)],
    .lit (.number 7)]

/-- C5: `anf` on a `List` with head `car` and arguments `cdr` returns the
node unchanged when every argument is atomic; otherwise it returns one `Let`
binding a fresh positional `_i` to each compound argument, whose single body
expression is the call with compound arguments replaced by `_i` and atomic
ones kept in place.  On the renamed `(f (+ 1 2) 7)` this is one `Let` binding
`_0` to `(+ 1 2)` with body `(f _0 7)`.  Non-`List` nodes pass through. -/
theorem c5_anf_normal_form :
    (∀ (car : Core) (cdr : List Core), cdr.all Expr.anf = true →
      anf (.list (car :: cdr)) = some (.list (car :: cdr))) ∧
    (∀ (car : Core) (cdr : List Core), cdr.all Expr.anf = false →
      anf (.list (car :: cdr)) =
        some (.letE
          ((cdr.enum.filter fun p => !p.2.anf).map
            fun p => (Ident.new ("_" ++ toString p.1), p.2))
          [.list (car :: cdr.enum.map fun p =>
            if p.2.anf then p.2
            else Expr.identifier (Ident.new ("_" ++ toString p.1)))])) ∧
    anf (rename [] Ident.empty 0 callProgram) =
      some (.letE
        [(["_0"], .list [.identifier ["+"], .lit (.number 1),
          .lit (.number 2)])]
        [.list [.identifier ["f"], .identifier ["_0"], .lit (.number 7)]]) ∧
    (∀ e : Core, isList e = false → anf e = some e) := by
  refine ⟨?_, ?_, rfl, ?_⟩
  · intro car cdr h
    simp [anf, h]
  · intro car cdr h
    simp [anf, h]
  · intro e he
    cases e with
    | list l => simp [isList] at he
    | _ => rfl

theorem c5_anf_normal_form_witness :
    anf (.list [Ident.expr "f", .lit (.number 7)])
        = some (.list [Ident.expr "f", .lit (.number 7)]) ∧
      anf (.lit .nil) = some (.lit .nil) :=
  ⟨c5_anf_normal_form.1 (Ident.expr "f") [.lit (.number 7)] (by rfl),
   c5_anf_normal_form.2.2.2 (.lit .nil) (by rfl)⟩

/-! ## C6: literal interning -/

/-- Interning one string literal through the `inline` pass. -/
def internString (s : State) (v : String) : State :=
  (inline s (.lit (.str v))).1

/-- Interning a sequence of string literals left to right. -/
def internStrings (s : State) (l : List String) : State :=
  l.foldl internString s

theorem regLookup_append (l1 l2 : List (String × Nat)) (k : String) :
    regLookup (l1 ++ l2) k =
      match regLookup l1 k with
      | some v => some v
      | none => regLookup l2 k := by
  induction l1 with
  | nil => rfl
  | cons p l1 ih =>
      obtain ⟨a, b⟩ := p
      by_cases hk : a = k <;> simp [regLookup, hk, ih]

theorem internStrings_fresh (l : List String) : ∀ (s : State), l.Nodup →
    (∀ v ∈ l, regLookup s.strings v = none) →
    (internStrings s l).strings
      = s.strings ++ (l.enumFrom s.strings.length).map (fun p => (p.2, p.1)) := by
  induction l with
  | nil => intro s _ _; simp [internStrings]
  | cons v vs ih =>
      intro s hnd hfresh
      have hv : regLookup s.strings v = none :=
        hfresh v (List.mem_cons_self _ _)
      have hstep : internStrings s (v :: vs)
          = internStrings (internString s v) vs := rfl
      have hss : (internString s v).strings
          = s.strings ++ [(v, s.strings.length)] := by
        simp [internString, inline, internLit, regIntern, hv]
      have hnotmem : v ∉ vs := (List.nodup_cons.mp hnd).1
      have hfresh' : ∀ w ∈ vs, regLookup (internString s v).strings w = none := by
        intro w hw
        rw [hss, regLookup_append, hfresh w (List.mem_cons_of_mem _ hw)]
        have hvw : v ≠ w := fun he => hnotmem (he ▸ hw)
        simp [regLookup, hvw]
      rw [hstep, ih (internString s v) (List.nodup_cons.mp hnd).2 hfresh', hss]
      simp [List.enumFrom, List.append_assoc, List.length_append]

/-- C6: the registries are idempotent and first-seen sequential — re-interning
a registered string or symbol leaves the whole state (index and both
registries) unchanged; a fresh string is appended with index equal to the
current registry size; a sequence of distinct fresh strings interned into an
empty state is registered in order with consecutive indices from 0; `"a"`
then `"b"` get indices 0 and 1, and `"hi"` interned twice keeps index 0. -/
theorem c6_intern_idempotent_sequential :
    (∀ (s : State) (v : String) (i : Nat), regLookup s.strings v = some i →
      inline s (.lit (.str v)) = (s, .lit (.str v))) ∧
    (∀ (s : State) (v : String) (i : Nat), regLookup s.symbols v = some i →
      inline s (.lit (.symbol v)) = (s, .lit (.symbol v))) ∧
    (∀ (s : State) (v : String), regLookup s.strings v = none →
      inline s (.lit (.str v)) =
        ({ s with strings := s.strings ++ [(v, s.strings.length)] },
          .lit (.str v))) ∧
    (∀ l : List String, l.Nodup →
      (internStrings State.new l).strings
        = (l.enumFrom 0).map (fun p => (p.2, p.1))) ∧
    (internStrings State.new ["a", "b"]).strings = [("a", 0), ("b", 1)] ∧
    internString (internString State.new "hi") "hi"
      = internString State.new "hi" ∧
    regLookup (internString State.new "hi").strings "hi" = some 0 := by
  refine ⟨?_, ?_, ?_, ?_, rfl, rfl, rfl⟩
  · intro s v i h
    simp [inline, internLit, regIntern, h]
  · intro s v i h
    simp [inline, internLit, regIntern, h]
  · intro s v h
    simp [inline, internLit, regIntern, h]
  · intro l hnd
    have := internStrings_fresh l State.new hnd (fun v _ => rfl)
    simpa [State.new] using this

theorem c6_intern_idempotent_sequential_witness :
    inline ⟨[("hi", 0)], []⟩ (.lit (.str "hi"))
        = (⟨[("hi", 0)], []⟩, .lit (.str "hi")) ∧
      (internStrings State.new ["a", "b"]).strings
        = ((["a", "b"].enumFrom 0).map fun p => (p.2, p.1)) :=
  ⟨c6_intern_idempotent_sequential.1 ⟨[("hi", 0)], []⟩ "hi" 0 (by rfl),
   c6_intern_idempotent_sequential.2.2.2.1 ["a", "b"] (by decide)⟩

/-! ## C7: renaming of `Define` -/

/-- C7's claimed equation: `val` is renamed under an environment that already
contains the qualified name (and under the extended base path). -/
def claimDefineEnvExtended (env : Env) (base : Ident) (index : Nat)
    (n : String) (v : Expr String) : Prop :=
  rename env base index (.define n v)
    = .define (base.extend n)
        (rename ((n, base.extend n) :: env) (base.extend n) 0 v)

/-- C7, as stated: false — `rename`'s `Define` arm extends the base path but
passes the environment through unchanged, so under base path `a` the
self-reference in `(define f f)` renames to the unresolved global `f`, not to
`a::f` as the claimed environment extension would give. -/
theorem c7_define_env_not_extended :
    ¬ claimDefineEnvExtended [] (Ident.new "a") 0 "f" (.identifier "f") := by
  intro h
  simp [claimDefineEnvExtended, rename, envLookup, Ident.expr, Ident.new,
    Ident.extend] at h

/-- C7 amended: the output name is `basePath` extended with `name`, and `val`
is renamed with the *unchanged* environment under base path
`basePath/name`; at the top level (empty base path, name unbound in the
environment) a self-reference inside `val` still resolves to the same `Ident`
as the `Define`'s own name, because an unresolved identifier degrades to the
raw single-segment `Ident`, which coincides with the empty-base
qualification. -/
theorem c7_define_rename :
    (∀ (env : Env) (base : Ident) (index : Nat) (n : String)
        (v : Expr String),
      rename env base index (.define n v)
        = .define (base.extend n) (rename env (base.extend n) 0 v)) ∧
    (∀ (env : Env) (index : Nat) (n : String),
      envLookup env n = none →
      rename env Ident.empty index (.define n (.identifier n))
        = .define (Ident.new n) (.identifier (Ident.new n))) := by
  constructor
  · intro env base index n v
    rfl
  · intro env index n h
    simp [rename, h, Ident.expr, Ident.new, Ident.empty, Ident.extend]

theorem c7_define_rename_witness :
    rename [] Ident.empty 0 (.define "f" (.identifier "f"))
      = .define (Ident.new "f") (.identifier (Ident.new "f")) :=
  c7_define_rename.2 [] 0 "f" rfl

/-! ## C8: post-ANF atomicity across the pipeline -/

mutual

/-- Deep ANF atomicity: in every `List` node anywhere in the expression,
every element after the head is atomic. -/
def deepAnf : Core → Bool
  | .identifier _ => true
  | .letE bs body => deepAnfBs bs && deepAnfList body
  | .list [] => deepAnfList []
  | .list (car :: cdr) => cdr.all Expr.anf && deepAnf car && deepAnfList cdr
  | .cond p t a => deepAnf p && deepAnf t && deepAnfOpt a
  | .lambda _ _ body _ => deepAnfList body
  | .define _ v => deepAnf v
  | .vector l => deepAnfList l
  | .lit _ => true

def deepAnfBs : List (Ident × Core) → Bool
  | [] => true
  | (_, v) :: bs => deepAnf v && deepAnfBs bs

def deepAnfList : List Core → Bool
  | [] => true
  | e :: es => deepAnf e && deepAnfList es

def deepAnfOpt : Option Core → Bool
  | none => true
  | some e => deepAnf e

end

/-- The single-level guarantee `anf` actually gives: if the node is a `List`,
its post-head elements are atomic. -/
def topListAnf : Core → Bool
  | .list (_ :: cdr) => cdr.all Expr.anf
  | _ => true

/-- `(f (g (h 1)))` — a compound argument nested two levels deep. -/
def nestedCall : Expr String :=
  .list [.identifier "f",
    .list [.identifier "g", .list [.identifier "h", .lit (.number 1)]]]

/-- C8, as stated: false — `anf` is applied once per item and does not
recurse, so after the full pipeline on `(f (g (h 1)))` the binding value
`(g (h 1))` still contains the `List` node `(h 1)` as a compound non-head
element of a deeper `List`. -/
theorem c8_deep_atomicity_fails :
    ((analyze State.new [nestedCall]).map fun r => r.2.all deepAnf)
      = some false := by rfl

theorem anf_topListAnf {e r : Core} (h : anf e = some r) :
    topListAnf r = true := by
  cases e with
  | list l =>
      cases l with
      | nil => simp [anf] at h
      | cons car cdr =>
          cases hall : cdr.all Expr.anf with
          | true =>
              rw [anf] at h
              rw [hall] at h
              simp at h
              rw [← h]
              simp [topListAnf, hall]
          | false =>
              rw [anf] at h
              rw [hall] at h
              simp at h
              rw [← h]
              simp [topListAnf]
  | identifier n => simp [anf] at h; rw [← h]; rfl
  | letE bs body => simp [anf] at h; rw [← h]; rfl
  | cond p t a => simp [anf] at h; rw [← h]; rfl
  | lambda fs fr b t => simp [anf] at h; rw [← h]; rfl
  | define n v => simp [anf] at h; rw [← h]; rfl
  | vector l => simp [anf] at h; rw [← h]; rfl
  | lit v => simp [anf] at h; rw [← h]; rfl

theorem tco_topListAnf {r : Core} (h : topListAnf r = true) :
    topListAnf (tco r) = true := by
  cases r with
  | define n v =>
      cases v with
      | lambda fs fr b t => rfl
      | _ => rfl
  | letE bs body => rfl
  | list l => exact h
  | _ => rfl

theorem anfAll_mem : ∀ {l l' : List Core}, anfAll l = some l' →
    ∀ r ∈ l', ∃ e ∈ l, anf e = some r := by
  intro l
  induction l with
  | nil =>
      intro l' h r hr
      simp [anfAll] at h
      subst h
      cases hr
  | cons e es ih =>
      intro l' h r hr
      rw [anfAll] at h
      cases he : anf e with
      | none => rw [he] at h; simp at h
      | some e1 =>
          cases hes : anfAll es with
          | none => rw [he, hes] at h; simp at h
          | some es1 =>
              rw [he, hes] at h
              simp at h
              subst h
              rcases List.mem_cons.mp hr with h1 | h2
              · exact ⟨e, List.mem_cons_self _ _, h1 ▸ he⟩
              · obtain ⟨e2, he2, ha⟩ := ih hes r h2
                exact ⟨e2, List.mem_cons_of_mem _ he2, ha⟩

/-- C8 amended: after the full pipeline, every output *item that is itself a
`List`* has only atomic elements after its head; `anf` is single-level, so
`List` nodes nested deeper inside an item (in a `Let` binding value, closure
body, or `Cond` branch) may keep compound elements. -/
theorem c8_top_level_atomicity (s : State) (prog : List (Expr String))
    (s' : State) (out : List Core) (h : analyze s prog = some (s', out)) :
    ∀ item ∈ out, topListAnf item = true := by
  intro item hmem
  simp only [analyze] at h
  rcases hI : inlineAll s ((prog.map (rename [] Ident.empty 0)).flatMap lift)
    with ⟨s1, inlined⟩
  rw [hI] at h
  simp only [] at h
  cases hA : anfAll inlined with
  | none => rw [hA] at h; simp at h
  | some normd =>
      rw [hA] at h
      simp at h
      obtain ⟨h1, h2⟩ := h
      rw [← h2] at hmem
      obtain ⟨r, hrmem, hr⟩ := List.mem_map.mp hmem
      obtain ⟨e, _, he⟩ := anfAll_mem hA r hrmem
      rw [← hr]
      exact tco_topListAnf (anf_topListAnf he)

theorem c8_top_level_atomicity_witness :
    topListAnf
      (.letE
        [(["_0"], .list [.identifier ["+"], .lit (.number 1),
          .lit (.number 2)])]
        [.list [.identifier ["f"], .identifier ["_0"], .lit (.number 7)]])
      = true :=
  c8_top_level_atomicity State.new [callProgram] State.new
    [.letE
      [(["_0"], .list [.identifier ["+"], .lit (.number 1),
        .lit (.number 2)])]
      [.list [.identifier ["f"], .identifier ["_0"], .lit (.number 7)]]]
    (by rfl) _ (List.mem_singleton.mpr rfl)

/-! ## C9: totality of the passes -/

/-- C9, as stated: false — `anf` reaches `list.split_at(1)` on a `List` with
zero elements, which panics (`mid > len`); the pass is not total there. -/
theorem c9_anf_empty_list_panics : anf (.list []) = none := rfl

/-- C9 amended: every pass terminates on every finite expression (all five
are accepted as total Lean functions), and no pass reaches a panicking branch
except `anf` on a `List` with zero elements: `anf` succeeds exactly on
non-empty-`List` inputs, and the `unwrap` in `rename`'s `Let` arm always
finds its key. -/
theorem c9_totality :
    (∀ e : Core, anf e = none ↔ e = .list []) ∧
    (∀ (env : Env) (base : Ident) (names : List String) (c : String),
      c ∈ names →
      (envLookup (insertAll env base names) c).isSome = true) := by
  constructor
  · intro e
    constructor
    · intro h
      cases e with
      | list l =>
          cases l with
          | nil => rfl
          | cons car cdr =>
              cases hall : cdr.all Expr.anf <;>
                · rw [anf, hall] at h
                  simp at h
      | identifier n => simp [anf] at h
      | letE bs body => simp [anf] at h
      | cond p t a => simp [anf] at h
      | lambda fs fr b t => simp [anf] at h
      | define n v => simp [anf] at h
      | vector l => simp [anf] at h
      | lit v => simp [anf] at h
    · intro h
      subst h
      rfl
  · intro env base names c hc
    exact rename_unwrap_safe hc env base

theorem c9_totality_witness :
    (envLookup (insertAll [] Ident.empty ["x"]) "x").isSome = true :=
  c9_totality.2 [] Ident.empty ["x"] "x" (List.mem_singleton.mpr rfl)

/-! ## C10: `inline` does not traverse non-lambda `Define` values -/

/-- C10: a `Define` whose value is not a `Lambda` passes through `inline`
with the state — both registries — unchanged, even when the value contains
string or symbol literals. -/
theorem c10_inline_define_frame (s : State) (n : Ident) (v : Core)
    (h : isLambda v = false) : inline s (.define n v) = (s, .define n v) := by
  cases v with
  | lambda fs fr b t => simp [isLambda] at h
  | _ => rfl

theorem c10_inline_define_frame_witness :
    inline State.new (.define ["s"] (.lit (.str "hi")))
      = (State.new, .define ["s"] (.lit (.str "hi"))) :=
  c10_inline_define_frame State.new ["s"] (.lit (.str "hi")) rfl

end Inc
